import Mathlib

/-!
# yankyt: fingerprints of titles, the directory scan and the download tasks

A shallow embedding of `yankyt.go`. Go strings are modelled as Lean strings, that is as
sequences of code points (valid UTF-8); the UTF-8 bytes are recovered by `stringBytes`
where the source hashes them. The two Unicode library functions the normalizer calls,
`norm.NFKC.String` and `unicode.ToLower`, are table driven; they enter as the parameter
`UnicodeTables`, which fixes only what they do on ASCII. `crypto/sha1` and
`encoding/hex` are written out in full. Paths use the Unix separator.
-/

namespace Yankyt

/-! ## Strings -/

/-- The predicate `unicode.IsSpace`: the white space of Latin-1 and the code points with
the White_Space property. -/
def isSpace (c : Char) : Bool :=
  let n := c.toNat
  n = 0x09 || n = 0x0A || n = 0x0B || n = 0x0C || n = 0x0D || n = 0x20 || n = 0x85 ||
  n = 0xA0 || n = 0x1680 || (0x2000 ≤ n && n ≤ 0x200A) || n = 0x2028 || n = 0x2029 ||
  n = 0x202F || n = 0x205F || n = 0x3000

/-- The function `strings.TrimSpace`: leading and trailing white space removed. -/
def trimSpace (s : List Char) : List Char :=
  (s.dropWhile isSpace).rdropWhile isSpace

/-- The function `strings.ReplaceAll` for a one-character `old`. -/
def replaceAll (s : List Char) (old : Char) (new : List Char) : List Char :=
  s.flatMap fun c => if c = old then new else [c]

/-- The function `strings.HasSuffix`. -/
def hasSuffix (s suffix : List Char) : Bool :=
  suffix.isSuffixOf s

/-- The function `strings.TrimSuffix`. -/
def trimSuffix (s suffix : List Char) : List Char :=
  if hasSuffix s suffix then s.take (s.length - suffix.length) else s

/-- Lowercase of an ASCII code point: what `unicode.ToLower` does below 128. -/
def asciiLower (c : Char) : Char :=
  if 0x41 ≤ c.toNat ∧ c.toNat ≤ 0x5A then Char.ofNat (c.toNat + 32) else c

/-- The two table-driven Unicode functions of the normalizer, `norm.NFKC.String` and
`unicode.ToLower`, with their behaviour on ASCII: NFKC leaves an ASCII string as it is
and `ToLower` maps `A`..`Z` to `a`..`z` and keeps every other ASCII code point. -/
structure UnicodeTables where
  nfkc : List Char → List Char
  toLower : Char → Char
  nfkc_ascii : ∀ s : List Char, (∀ c ∈ s, c.toNat < 128) → nfkc s = s
  toLower_ascii : ∀ c : Char, c.toNat < 128 → toLower c = asciiLower c

/-- Tables that do nothing outside ASCII; on ASCII input every `UnicodeTables` agrees
with them. -/
def asciiTables : UnicodeTables where
  nfkc := id
  toLower := asciiLower
  nfkc_ascii := fun _ _ => rfl
  toLower_ascii := fun _ _ => rfl

/-- Normalize the title by removing special characters and spaces. -/
def normalizeTitle (U : UnicodeTables) (title : String) : String :=
  let t := trimSpace title.data
  let t := U.nfkc t
  let t := t.map U.toLower
  let t := replaceAll t ' ' []
  let t := replaceAll t '|' []
  let t := replaceAll t '/' []
  let t := replaceAll t '\\' []
  let t := replaceAll t ':' []
  let t := replaceAll t '*' []
  let t := replaceAll t '?' []
  let t := replaceAll t '"' []
  let t := replaceAll t '<' []
  let t := replaceAll t '>' []
  let t := replaceAll t '.' []
  let t := replaceAll t ',' []
  ⟨t⟩

/-! ## SHA-1 and the fingerprint -/

/-- UTF-8 encoding of one code point, as the bytes a Go string holds for it. -/
def utf8EncodeRune (c : Char) : List Nat :=
  let n := c.toNat
  if n < 0x80 then [n]
  else if n < 0x800 then [0xC0 + n / 64, 0x80 + n % 64]
  else if n < 0x10000 then [0xE0 + n / 4096, 0x80 + (n / 64) % 64, 0x80 + n % 64]
  else [0xF0 + n / 262144, 0x80 + (n / 4096) % 64, 0x80 + (n / 64) % 64, 0x80 + n % 64]

/-- The conversion `[]byte(title)`: the UTF-8 bytes of a string. -/
def stringBytes (s : String) : List Nat :=
  s.data.flatMap utf8EncodeRune

/-- Rotation of a 32-bit word to the left, `bits.RotateLeft32`. -/
def rotateLeft32 (x k : Nat) : Nat :=
  ((x <<< k) ||| (x >>> (32 - k))) % 2 ^ 32

/-- Bitwise complement of a 32-bit word. -/
def not32 (x : Nat) : Nat :=
  (2 ^ 32 - 1) ^^^ x

/-- Big-endian bytes of a 32-bit word. -/
def be32 (x : Nat) : List Nat :=
  [x / 2 ^ 24 % 256, x / 2 ^ 16 % 256, x / 2 ^ 8 % 256, x % 256]

/-- Big-endian bytes of a 64-bit word. -/
def be64 (x : Nat) : List Nat :=
  be32 (x / 2 ^ 32 % 2 ^ 32) ++ be32 (x % 2 ^ 32)

/-- Padding of `crypto/sha1`: the byte 0x80, zero bytes up to 56 modulo 64, and the
length of the message in bits as eight big-endian bytes. -/
def sha1Pad (msg : List Nat) : List Nat :=
  let len := msg.length
  let padLen := if len % 64 < 56 then 56 - len % 64 else 64 + 56 - len % 64
  msg ++ 0x80 :: List.replicate (padLen - 1) 0 ++ be64 (len * 8 % 2 ^ 64)

/-- The big-endian 32-bit words of a block of bytes. -/
def wordsOfBytes : List Nat → List Nat
  | b0 :: b1 :: b2 :: b3 :: rest =>
      (b0 * 2 ^ 24 + b1 * 2 ^ 16 + b2 * 2 ^ 8 + b3) :: wordsOfBytes rest
  | _ => []

/-- Message schedule, most recent word first: `n` more words are added, each the
rotation of the exclusive or of the words 3, 8, 14 and 16 places back. -/
def sha1Extend : Nat → List Nat → List Nat
  | 0, ws => ws
  | n + 1, ws =>
      sha1Extend n
        (rotateLeft32 (ws.getD 2 0 ^^^ ws.getD 7 0 ^^^ ws.getD 13 0 ^^^ ws.getD 15 0) 1 :: ws)

/-- The five working words of SHA-1. -/
structure Sha1State where
  a : Nat
  b : Nat
  c : Nat
  d : Nat
  e : Nat
deriving DecidableEq, Repr

/-- Round function and constant of round `t`. -/
def sha1F (t b c d : Nat) : Nat × Nat :=
  if t < 20 then ((b &&& c) ||| (not32 b &&& d), 0x5A827999)
  else if t < 40 then (b ^^^ c ^^^ d, 0x6ED9EBA1)
  else if t < 60 then (((b ||| c) &&& d) ||| (b &&& c), 0x8F1BBCDC)
  else (b ^^^ c ^^^ d, 0xCA62C1D6)

/-- One round of the compression function on the word `w` of round `t`. -/
def sha1Round (s : Sha1State) (t w : Nat) : Sha1State :=
  let fk := sha1F t s.b s.c s.d
  { a := (rotateLeft32 s.a 5 + fk.1 + s.e + w + fk.2) % 2 ^ 32
    b := s.a
    c := rotateLeft32 s.b 30
    d := s.c
    e := s.d }

/-- The rounds over the schedule, `t` counting the round. -/
def sha1Rounds : List Nat → Nat → Sha1State → Sha1State
  | [], _, s => s
  | w :: ws, t, s => sha1Rounds ws (t + 1) (sha1Round s t w)

/-- The block function: the chaining value after one 64-byte block. -/
def sha1Block (h : Sha1State) (block : List Nat) : Sha1State :=
  let ws := (sha1Extend 64 (wordsOfBytes block).reverse).reverse
  let r := sha1Rounds ws 0 h
  { a := (h.a + r.a) % 2 ^ 32
    b := (h.b + r.b) % 2 ^ 32
    c := (h.c + r.c) % 2 ^ 32
    d := (h.d + r.d) % 2 ^ 32
    e := (h.e + r.e) % 2 ^ 32 }

/-- The block function over `n` consecutive 64-byte blocks. -/
def sha1Blocks : Nat → Sha1State → List Nat → Sha1State
  | 0, h, _ => h
  | n + 1, h, p => sha1Blocks n (sha1Block h (p.take 64)) (p.drop 64)

/-- Initial chaining value of SHA-1. -/
def sha1Init : Sha1State :=
  { a := 0x67452301, b := 0xEFCDAB89, c := 0x98BADCFE, d := 0x10325476, e := 0xC3D2E1F0 }

/-- The 20-byte SHA-1 digest of a byte string, `sha1.New(); Write; Sum(nil)`. -/
def sha1Sum (msg : List Nat) : List Nat :=
  let p := sha1Pad msg
  let h := sha1Blocks (p.length / 64) sha1Init p
  be32 h.a ++ be32 h.b ++ be32 h.c ++ be32 h.d ++ be32 h.e

/-- The digits of `encoding/hex`. -/
def hextable : List Char := "0123456789abcdef".data

/-- The function `hex.EncodeToString`: two lowercase digits per byte. -/
def hexEncode (bytes : List Nat) : List Char :=
  bytes.flatMap fun v => [hextable.getD (v / 16) '0', hextable.getD (v % 16) '0']

/-- Generate a hash of the normalized title. -/
def hashTitle (title : String) : String :=
  ⟨hexEncode (sha1Sum (stringBytes title))⟩

/-! ## File names -/

/-- Check if a file is completely downloaded. -/
def isFileComplete (filePath : String) : Bool :=
  if hasSuffix filePath.data ".part".data || hasSuffix filePath.data ".aria2".data then
    false
  else
    true

/-- The predicate `os.IsPathSeparator` on Unix. -/
def isPathSeparator (c : Char) : Bool :=
  c = '/'

/-- The scan of `filepath.Ext` from the end of the path: `before` is what is left of the
path, last character first, and `after` what has been passed. -/
def extScan : List Char → List Char → List Char
  | [], _ => []
  | c :: before, after =>
      if isPathSeparator c then []
      else if c = '.' then c :: after
      else extScan before (c :: after)

/-- The function `filepath.Ext`: the suffix from the last dot of the last path element,
empty when that element has no dot. -/
def ext (path : List Char) : List Char :=
  extScan path.reverse []

/-- The loop of `removeAllExtensions`, with a bound on the number of iterations; `none`
when the bound is reached. -/
def removeAllExtensionsLoop : Nat → List Char → Option (List Char)
  | 0, _ => none
  | fuel + 1, filename =>
      if ext filename = [] then some filename
      else removeAllExtensionsLoop fuel (trimSuffix filename (ext filename))

/-- Remove all extensions from a filename. The bound is never reached
(`removeAllExtensionsLoop_terminates`). -/
def removeAllExtensions (filename : String) : String :=
  ⟨(removeAllExtensionsLoop (filename.data.length + 1) filename.data).getD filename.data⟩

/-! ## The directory walk -/

/-- A file or a directory of the tree under the target directory. A directory carries
what `os.ReadDir` returns for it: the entries read and the error, if any. -/
inductive FsNode where
  | file (name : String)
  | dir (name : String) (entries : List FsNode) (readErr : Option String)

/-- The method `Name` of a directory entry: its base name. -/
def FsNode.name : FsNode → String
  | .file name => name
  | .dir name _ _ => name

/-- The method `IsDir` of a directory entry. -/
def FsNode.isDir : FsNode → Bool
  | .file _ => false
  | .dir _ _ _ => true

/-- An error value in the walk: the two sentinels of `io/fs` and every other error. -/
inductive WalkErr where
  | skipDir
  | skipAll
  | other (msg : String)
deriving DecidableEq, Repr

/-- A callback of `filepath.WalkDir` over a state `σ`: from the path, the entry (`none`
for a nil entry) and the error reported, the new state and the error returned; the
result `none` is a run-time panic. -/
abbrev WalkDirFunc (σ : Type) := σ → String → Option FsNode → Option WalkErr → Option (σ × Option WalkErr)

mutual
/-- The recursive descent `walkDir` of `path/filepath`. -/
def walkDir {σ : Type} (fn : WalkDirFunc σ) (path : String) : FsNode → σ → Option (σ × Option WalkErr)
  | .file name, st => fn st path (some (.file name)) none
  | .dir name entries readErr, st =>
      match fn st path (some (.dir name entries readErr)) none with
      | none => none
      | some (st1, some err) => some (st1, if err = .skipDir then none else some err)
      | some (st1, none) =>
          match readErr with
          | some e =>
              match fn st1 path (some (.dir name entries readErr)) (some (.other e)) with
              | none => none
              | some (st2, some err) => some (st2, if err = .skipDir then none else some err)
              | some (st2, none) => walkEntries fn path entries st2
          | none => walkEntries fn path entries st1
/-- The loop of `walkDir` over the entries read from a directory. -/
def walkEntries {σ : Type} (fn : WalkDirFunc σ) (path : String) : List FsNode → σ → Option (σ × Option WalkErr)
  | [], st => some (st, none)
  | d1 :: rest, st =>
      match walkDir fn (path ++ "/" ++ d1.name) d1 st with
      | none => none
      | some (st1, some err) => some (st1, if err = .skipDir then none else some err)
      | some (st1, none) => walkEntries fn path rest st1
end

/-- The function `filepath.WalkDir`: `lstat` is the result of `os.Lstat` on the root. -/
def walkDirRoot {σ : Type} (fn : WalkDirFunc σ) (root : String) (lstat : Except String FsNode)
    (st : σ) : Option (σ × Option WalkErr) :=
  let r :=
    match lstat with
    | .error e => fn st root none (some (.other e))
    | .ok info => walkDir fn root info st
  r.map fun p => (p.1, if p.2 = some .skipDir ∨ p.2 = some .skipAll then none else p.2)

/-- The callback of `main`: the entry is appended to `files` unless it is a directory,
the error reported is not looked at and `nil` is returned. A nil entry is dereferenced. -/
def collectFiles : WalkDirFunc (List String)
  | _, _, none, _ => none
  | files, _, some d, _ => some (if !d.isDir then files ++ [d.name] else files, none)

/-! ## The fingerprints on disk and the download tasks -/

/-- An entry of the playlist. -/
structure VideoEntry where
  url : String
  title : String
deriving DecidableEq, Repr

/-- The assignment `existingVideos[hash] = true` on the keys of the map. Every value
the program stores is `true` and it reads only whether a key is present. -/
def mapSet (existingVideos : List String) (hash : String) : List String :=
  if hash ∈ existingVideos then existingVideos else existingVideos ++ [hash]

/-- The loop of `main` over `files` that fills `existingVideos`. -/
def seedExisting (U : UnicodeTables) (files : List String) : List String :=
  files.foldl
    (fun existingVideos name =>
      if isFileComplete name then
        mapSet existingVideos (hashTitle (normalizeTitle U (removeAllExtensions name)))
      else existingVideos)
    []

/-- Where a `downloadVideo` goroutine stands: not yet at the map, past the read of the
map with the value of `exists`, or returned. -/
inductive TaskPc where
  | start
  | checked (found : Bool)
  | done
deriving DecidableEq, Repr

/-- What a task does after the read of the map: it runs the download of the entry or it
logs the entry as already downloaded. -/
inductive Event where
  | downloading (i : Nat)
  | alreadyDownloaded (i : Nat)
deriving DecidableEq, Repr

/-- The state shared by the goroutines of a run, and where each of them stands. -/
structure RunState where
  existingVideos : List String
  pcs : List TaskPc
  log : List Event
deriving DecidableEq, Repr

/-- One step of the goroutine of entry `i`: the read of `existingVideos` under the
mutex, then the download or the log line. No step writes to the map. -/
def stepTask (U : UnicodeTables) (entries : List VideoEntry) (st : RunState) (i : Nat) : RunState :=
  match entries[i]?, st.pcs[i]? with
  | some entry, some .start =>
      let hash := hashTitle (normalizeTitle U entry.title)
      { st with pcs := st.pcs.set i (.checked (decide (hash ∈ st.existingVideos))) }
  | some _, some (.checked false) =>
      { st with pcs := st.pcs.set i .done, log := st.log ++ [.downloading i] }
  | some _, some (.checked true) =>
      { st with pcs := st.pcs.set i .done, log := st.log ++ [.alreadyDownloaded i] }
  | _, _ => st

/-- The state when every goroutine has been started and none has run. -/
def initRun (existingVideos : List String) (entries : List VideoEntry) : RunState :=
  { existingVideos := existingVideos, pcs := entries.map fun _ => .start, log := [] }

/-- The run of the goroutines under a schedule: the list of the tasks that take a step,
in the order they take it. -/
def runTasks (U : UnicodeTables) (existingVideos : List String) (entries : List VideoEntry)
    (sched : List Nat) : RunState :=
  sched.foldl (stepTask U entries) (initRun existingVideos entries)

/-- Every goroutine has returned: `wg.Wait` returns. -/
def RunState.allDone (st : RunState) : Bool :=
  st.pcs.all fun pc => pc = .done

/-- The entries the run downloaded, in the order the downloads began. -/
def RunState.fetched (st : RunState) : List Nat :=
  st.log.filterMap fun
    | .downloading i => some i
    | .alreadyDownloaded _ => none

/-- The entries the run logged as already downloaded. -/
def RunState.skipped (st : RunState) : List Nat :=
  st.log.filterMap fun
    | .downloading _ => none
    | .alreadyDownloaded i => some i

/-- How `main` ends, from the walk of the directory on. -/
inductive Outcome where
  | fatal (msg : String)
  | panicked
  | dispatched (files : List String) (st : RunState)
deriving DecidableEq, Repr

/-- The function `main` from the walk of `dirPath` on: the walk, the check of its error,
the fingerprints of the complete files, and the goroutines under a schedule. -/
def mainRun (U : UnicodeTables) (dirPath : String) (lstat : Except String FsNode)
    (entries : List VideoEntry) (sched : List Nat) : Outcome :=
  match walkDirRoot collectFiles dirPath lstat [] with
  | none => .panicked
  | some (_, some err) =>
      .fatal ("Error reading directory: " ++ match err with
        | .other msg => msg
        | .skipDir => "skip this directory"
        | .skipAll => "skip everything and stop the walk")
  | some (files, none) => .dispatched files (runTasks U (seedExisting U files) entries sched)

/-! ## Definitions for the statements -/

/-- The characters `normalizeTitle` deletes: the space and the special characters. -/
def strippedChars : List Char :=
  [' ', '|', '/', '\\', ':', '*', '?', '"', '<', '>', '.', ',']

/-- The title with every ASCII letter lowercased and every space and every
special character deleted. -/
def lowerAndDelete (s : String) : String :=
  ⟨(s.data.filter fun c => !strippedChars.contains c).map asciiLower⟩

/-- The value of `exists` in the task of an entry: whether the fingerprint of its title
is a key of the map. -/
def foundIn (U : UnicodeTables) (existingVideos : List String) (entry : VideoEntry) : Bool :=
  decide (hashTitle (normalizeTitle U entry.title) ∈ existingVideos)

/-- Where a task stands after it has been scheduled `k` times. -/
def taskPcAfter (found : Bool) (k : Nat) : TaskPc :=
  if k = 0 then .start else if k = 1 then .checked found else .done

/-- What is true of a run after a schedule, task by task. -/
structure RunInv (U : UnicodeTables) (existingVideos : List String) (entries : List VideoEntry)
    (sched : List Nat) (st : RunState) : Prop where
  map_eq : st.existingVideos = existingVideos
  length_eq : st.pcs.length = entries.length
  pc_eq : ∀ i e, entries[i]? = some e →
    st.pcs[i]? = some (taskPcAfter (foundIn U existingVideos e) (sched.count i))
  fetched_eq : ∀ i, st.fetched.count i =
    match entries[i]? with
    | some e => if 2 ≤ sched.count i ∧ foundIn U existingVideos e = false then 1 else 0
    | none => 0
  skipped_eq : ∀ i, st.skipped.count i =
    match entries[i]? with
    | some e => if 2 ≤ sched.count i ∧ foundIn U existingVideos e = true then 1 else 0
    | none => 0

/-- The playlist of the end-to-end scenario: two entries titled `Talk A` and one titled
`Talk B`. -/
def talkCatalog : List VideoEntry :=
  [⟨"https://example.com/1", "Talk A"⟩, ⟨"https://example.com/2", "Talk A"⟩,
    ⟨"https://example.com/3", "Talk B"⟩]

/-! ## Extensions -/

theorem extScan_suffix (before after : List Char) :
    extScan before after <:+ before.reverse ++ after := by
  induction before generalizing after with
  | nil => simp [extScan]
  | cons c before ih =>
    unfold extScan
    split
    · exact List.nil_suffix
    · split
      · simp only [List.reverse_cons, List.append_assoc, List.singleton_append]
        exact List.suffix_append _ _
      · simpa using ih (c :: after)

theorem ext_suffix (path : List Char) : ext path <:+ path := by
  simpa [ext] using extScan_suffix path.reverse []

theorem extScan_head (before after : List Char) :
    extScan before after = [] ∨ ∃ tl, extScan before after = '.' :: tl := by
  induction before generalizing after with
  | nil => simp [extScan]
  | cons c before ih =>
    unfold extScan
    split
    · exact Or.inl rfl
    · split
      · next h => exact Or.inr ⟨after, by rw [h]⟩
      · exact ih (c :: after)

theorem extScan_eq_nil_no_dot (before after : List Char)
    (hsep : ∀ c ∈ before, isPathSeparator c = false) (h : extScan before after = []) :
    '.' ∉ before := by
  induction before generalizing after with
  | nil => simp
  | cons c before ih =>
    unfold extScan at h
    have hc : isPathSeparator c = false := hsep c (List.mem_cons_self _ _)
    rw [hc] at h
    simp only [Bool.false_eq_true, if_false] at h
    split at h
    · simp at h
    · next hne =>
      have := ih (c :: after) (fun x hx => hsep x (List.mem_cons_of_mem _ hx)) h
      simp only [List.mem_cons, not_or]
      exact ⟨fun e => hne e.symm, this⟩

theorem trimSuffix_append (s suffix : List Char) (h : suffix <:+ s) :
    trimSuffix s suffix ++ suffix = s := by
  obtain ⟨t, rfl⟩ := h
  have : hasSuffix (t ++ suffix) suffix = true := by
    simp [hasSuffix]
  simp [trimSuffix, this]

theorem takeWhile_append_stop {α : Type} (p : α → Bool) (a b : List α) (x : α) (hx : p x = false) :
    (a ++ x :: b).takeWhile p = a.takeWhile p := by
  induction a with
  | nil => simp [List.takeWhile, hx]
  | cons y a ih =>
    simp only [List.cons_append, List.takeWhile_cons]
    split
    · rw [ih]
    · rfl

/-- What one run of the loop returns: a prefix of the name with no extension left and
with the same part before the first dot. -/
theorem removeAllExtensionsLoop_spec (fuel : Nat) (filename : List Char)
    (hfuel : filename.length < fuel) :
    ∃ r, removeAllExtensionsLoop fuel filename = some r ∧ ext r = [] ∧ r <+: filename ∧
      r.takeWhile (fun c => c != '.') = filename.takeWhile (fun c => c != '.') := by
  induction fuel generalizing filename with
  | zero => omega
  | succ fuel ih =>
    unfold removeAllExtensionsLoop
    by_cases h : ext filename = []
    · exact ⟨filename, by simp [h], h, List.prefix_refl _, rfl⟩
    · have hsuf := trimSuffix_append filename (ext filename) (ext_suffix filename)
      obtain ⟨tl, htl⟩ : ∃ tl, ext filename = '.' :: tl := by
        rcases extScan_head filename.reverse [] with h0 | h1
        · exact absurd h0 h
        · exact h1
      have hlen : (trimSuffix filename (ext filename)).length < fuel := by
        have := congrArg List.length hsuf
        rw [htl] at this
        simp at this
        rw [htl]
        omega
      obtain ⟨r, hr, hext, hpre, htw⟩ := ih _ hlen
      refine ⟨r, by simp [h, hr], hext, ?_, ?_⟩
      · exact hpre.trans ⟨ext filename, hsuf⟩
      · rw [htw]
        conv_rhs => rw [← hsuf, htl]
        rw [takeWhile_append_stop _ _ _ _ (by decide)]
        rw [htl]

theorem removeAllExtensionsLoop_terminates (filename : List Char) :
    ∃ r, removeAllExtensionsLoop (filename.length + 1) filename = some r :=
  let ⟨r, h, _⟩ := removeAllExtensionsLoop_spec (filename.length + 1) filename (Nat.lt_succ_self _)
  ⟨r, h⟩

theorem removeAllExtensions_no_sep (filename : List Char)
    (hsep : ∀ c ∈ filename, isPathSeparator c = false) :
    removeAllExtensionsLoop (filename.length + 1) filename =
      some (filename.takeWhile (fun c => c != '.')) := by
  obtain ⟨r, hr, hext, hpre, htw⟩ :=
    removeAllExtensionsLoop_spec (filename.length + 1) filename (Nat.lt_succ_self _)
  have hnodot : '.' ∉ r := by
    have := extScan_eq_nil_no_dot r.reverse [] (fun c hc => hsep c (hpre.subset (by simpa using hc))) hext
    simpa using this
  have : r.takeWhile (fun c => c != '.') = r := by
    rw [List.takeWhile_eq_self_iff]
    intro c hc
    simp only [bne_iff_ne, ne_eq]
    rintro rfl
    exact hnodot hc
  rw [hr, ← htw, this]

theorem removeAllExtensions_eq_takeWhile (filename : String)
    (hsep : ∀ c ∈ filename.data, isPathSeparator c = false) :
    removeAllExtensions filename = ⟨filename.data.takeWhile fun c => c != '.'⟩ := by
  unfold removeAllExtensions
  rw [removeAllExtensions_no_sep filename.data hsep]
  rfl

/-! ## The normalizer -/

theorem ascii_cases (P : Char → Prop) (h : ∀ n < 128, P (Char.ofNat n)) (c : Char)
    (hc : c.toNat < 128) : P c := by
  have := h c.toNat hc
  rwa [Char.ofNat_toNat] at this

theorem replaceAll_nil (s : List Char) (old : Char) :
    replaceAll s old [] = s.filter fun c => c != old := by
  induction s with
  | nil => rfl
  | cons c s ih =>
    simp only [replaceAll, List.flatMap_cons] at ih ⊢
    by_cases h : c = old
    · simp [h, ih]
    · simp [h, ih]

theorem strip_eq_filter (t : List Char) :
    replaceAll (replaceAll (replaceAll (replaceAll (replaceAll (replaceAll (replaceAll
      (replaceAll (replaceAll (replaceAll (replaceAll (replaceAll t ' ' []) '|' []) '/' [])
      '\\' []) ':' []) '*' []) '?' []) '"' []) '<' []) '>' []) '.' []) ',' [] =
    t.filter fun c => !strippedChars.contains c := by
  simp only [replaceAll_nil, List.filter_filter]
  apply List.filter_congr
  intro c _
  rw [Bool.eq_iff_iff]
  simp [strippedChars]
  tauto

theorem normalizeTitle_eq (U : UnicodeTables) (s : String) :
    normalizeTitle U s =
      ⟨((U.nfkc (trimSpace s.data)).map U.toLower).filter fun c => !strippedChars.contains c⟩ := by
  simp only [normalizeTitle, strip_eq_filter]

theorem mem_trimSpace {s : List Char} {c : Char} (h : c ∈ trimSpace s) : c ∈ s := by
  unfold trimSpace at h
  exact (List.dropWhile_sublist _).subset ((List.rdropWhile_prefix _ _).subset h)

theorem filter_dropWhile {α : Type} (p q : α → Bool) (l : List α)
    (h : ∀ c ∈ l, p c = true → q c = false) : (l.dropWhile p).filter q = l.filter q := by
  induction l with
  | nil => rfl
  | cons c l ih =>
    rw [List.dropWhile_cons]
    split
    · next hp =>
      rw [ih fun x hx => h x (List.mem_cons_of_mem _ hx)]
      simp [h c (List.mem_cons_self _ _) hp]
    · rfl

theorem filter_rdropWhile {α : Type} (p q : α → Bool) (l : List α)
    (h : ∀ c ∈ l, p c = true → q c = false) : (l.rdropWhile p).filter q = l.filter q := by
  have := filter_dropWhile p q l.reverse (fun c hc => h c (List.mem_reverse.mp hc))
  rw [List.rdropWhile, List.filter_reverse, this, List.filter_reverse, List.reverse_reverse]

theorem filter_trimSpace (q : Char → Bool) (s : List Char)
    (h : ∀ c ∈ s, isSpace c = true → q c = false) : (trimSpace s).filter q = s.filter q := by
  unfold trimSpace
  rw [filter_rdropWhile isSpace q _ fun c hc => h c ((List.dropWhile_sublist _).subset hc),
    filter_dropWhile isSpace q s h]

theorem asciiLower_stripped (c : Char) :
    strippedChars.contains (asciiLower c) = strippedChars.contains c := by
  unfold asciiLower
  split
  · next h =>
    have hc : c.toNat < 128 := by omega
    revert h
    refine ascii_cases
      (fun c => 0x41 ≤ c.toNat ∧ c.toNat ≤ 0x5A →
        strippedChars.contains (Char.ofNat (c.toNat + 32)) = strippedChars.contains c) ?_ c hc
    decide
  · rfl

theorem asciiLower_idem (c : Char) : asciiLower (asciiLower c) = asciiLower c := by
  by_cases h : 0x41 ≤ c.toNat ∧ c.toNat ≤ 0x5A
  · have hc : c.toNat < 128 := by omega
    refine ascii_cases (fun c => asciiLower (asciiLower c) = asciiLower c) ?_ c hc
    decide
  · have : asciiLower c = c := by simp [asciiLower, h]
    rw [this, this]

theorem asciiLower_toNat (c : Char) (hc : c.toNat < 128) : (asciiLower c).toNat < 128 := by
  refine ascii_cases (fun c => (asciiLower c).toNat < 128) ?_ c hc
  decide

theorem asciiLower_isSpace (c : Char) : isSpace (asciiLower c) = isSpace c := by
  by_cases h : 0x41 ≤ c.toNat ∧ c.toNat ≤ 0x5A
  · have hc : c.toNat < 128 := by omega
    refine ascii_cases (fun c => isSpace (asciiLower c) = isSpace c) ?_ c hc
    decide
  · have : asciiLower c = c := by simp [asciiLower, h]
    rw [this]

theorem filter_map_asciiLower (t : List Char) :
    (t.map asciiLower).filter (fun c => !strippedChars.contains c) =
      (t.filter fun c => !strippedChars.contains c).map asciiLower := by
  induction t with
  | nil => rfl
  | cons c t ih =>
    simp only [List.map_cons, List.filter_cons, asciiLower_stripped, ih]
    split <;> simp

/-- On an ASCII title every `UnicodeTables` gives what `asciiTables` gives. -/
theorem normalizeTitle_ascii (U : UnicodeTables) (s : String)
    (hascii : ∀ c ∈ s.data, c.toNat < 128) :
    normalizeTitle U s = normalizeTitle asciiTables s := by
  have htrim : ∀ c ∈ trimSpace s.data, c.toNat < 128 := fun c hc => hascii c (mem_trimSpace hc)
  rw [normalizeTitle_eq, normalizeTitle_eq, U.nfkc_ascii _ htrim]
  have : (trimSpace s.data).map U.toLower = (trimSpace s.data).map asciiLower :=
    List.map_congr_left fun c hc => U.toLower_ascii c (htrim c hc)
  rw [this]
  rfl

/-- On an ASCII title whose only white space is the space, the normalizer lowercases the
letters and deletes the space and the special characters. -/
theorem normalizeTitle_eq_lowerAndDelete (U : UnicodeTables) (s : String)
    (hascii : ∀ c ∈ s.data, c.toNat < 128)
    (hspace : ∀ c ∈ s.data, isSpace c = true → c = ' ') :
    normalizeTitle U s = lowerAndDelete s := by
  rw [normalizeTitle_ascii U s hascii, normalizeTitle_eq]
  show String.mk (((trimSpace s.data).map asciiLower).filter _) = _
  rw [filter_map_asciiLower, filter_trimSpace]
  · rfl
  · intro c hc hsp
    rw [hspace c hc hsp]
    decide

theorem lowerAndDelete_idem (s : String) : lowerAndDelete (lowerAndDelete s) = lowerAndDelete s := by
  unfold lowerAndDelete
  simp only [filter_map_asciiLower, List.filter_filter, Bool.and_self, List.map_map]
  congr 1
  apply List.map_congr_left
  intro c _
  exact asciiLower_idem c

/-! ## Claims on the normalizer -/

/-- C6: for a title of printable ASCII characters the normalized title is the title with
every ASCII letter lowercased and every space and every character of
`| / \ : * ? " < > . ,` deleted; so two such titles that agree once lowercased and
stripped normalize to the same string. -/
theorem normalizeTitle_printable (U : UnicodeTables) (s : String)
    (hs : ∀ c ∈ s.data, 0x20 ≤ c.toNat ∧ c.toNat ≤ 0x7E) :
    normalizeTitle U s = lowerAndDelete s ∧
      ∀ t : String, (∀ c ∈ t.data, 0x20 ≤ c.toNat ∧ c.toNat ≤ 0x7E) →
        lowerAndDelete s = lowerAndDelete t → normalizeTitle U s = normalizeTitle U t := by
  have key : ∀ t : String, (∀ c ∈ t.data, 0x20 ≤ c.toNat ∧ c.toNat ≤ 0x7E) →
      normalizeTitle U t = lowerAndDelete t := by
    intro t ht
    apply normalizeTitle_eq_lowerAndDelete U t (fun c hc => by have := ht c hc; omega)
    intro c hc
    have hc' := ht c hc
    refine ascii_cases (fun c => 0x20 ≤ c.toNat ∧ c.toNat ≤ 0x7E → isSpace c = true → c = ' ')
      ?_ c (by omega) hc'
    decide
  exact ⟨key s hs, fun t ht h => by rw [key s hs, key t ht, h]⟩

/-- The witness of C6: `" Foo: Bar "` and `"foobar"` both normalize to `"foobar"`. -/
theorem normalizeTitle_printable_witness :
    normalizeTitle asciiTables " Foo: Bar " = "foobar" ∧
      normalizeTitle asciiTables " Foo: Bar " = normalizeTitle asciiTables "foobar" :=
  ⟨(normalizeTitle_printable asciiTables " Foo: Bar " (by decide)).1.trans (by decide),
    (normalizeTitle_printable asciiTables " Foo: Bar " (by decide)).2 "foobar" (by decide)
      (by decide)⟩

/-- C5, as stated, fails: whatever the Unicode tables, normalizing `"a\t."` gives
`"a\t"` (the tab is no longer at the end when the string is trimmed, the dot goes
after), and normalizing that again gives `"a"`. -/
theorem normalizeTitle_not_idempotent :
    ¬ ∃ U : UnicodeTables,
      normalizeTitle U (normalizeTitle U "a\t.") = normalizeTitle U "a\t." := by
  rintro ⟨U, h⟩
  have h1 : normalizeTitle U "a\t." = "a\t" :=
    (normalizeTitle_ascii U "a\t." (by decide)).trans (by decide)
  have h2 : normalizeTitle U "a\t" = "a" :=
    (normalizeTitle_ascii U "a\t" (by decide)).trans (by decide)
  rw [h1, h2] at h
  exact absurd h (by decide)

/-- C5, amended: on a title of ASCII characters none of which is a tab, a newline, a
vertical tab, a form feed or a carriage return, `normalizeTitle` is idempotent. -/
theorem normalizeTitle_idempotent (U : UnicodeTables) (s : String)
    (hs : ∀ c ∈ s.data, c.toNat < 128 ∧ ¬ (0x09 ≤ c.toNat ∧ c.toNat ≤ 0x0D)) :
    normalizeTitle U (normalizeTitle U s) = normalizeTitle U s := by
  have hsp : ∀ c : Char, c.toNat < 128 → ¬ (0x09 ≤ c.toNat ∧ c.toNat ≤ 0x0D) →
      isSpace c = true → c = ' ' := by
    intro c hc
    refine ascii_cases
      (fun c => ¬ (0x09 ≤ c.toNat ∧ c.toNat ≤ 0x0D) → isSpace c = true → c = ' ') ?_ c hc
    decide
  have h1 : normalizeTitle U s = lowerAndDelete s :=
    normalizeTitle_eq_lowerAndDelete U s (fun c hc => (hs c hc).1)
      (fun c hc => hsp c (hs c hc).1 (hs c hc).2)
  have hmem : ∀ c ∈ (lowerAndDelete s).data, ∃ d ∈ s.data, c = asciiLower d := by
    intro c hc
    simp only [lowerAndDelete, List.mem_map, List.mem_filter] at hc
    obtain ⟨d, ⟨hd, _⟩, rfl⟩ := hc
    exact ⟨d, hd, rfl⟩
  have h2 : normalizeTitle U (lowerAndDelete s) = lowerAndDelete (lowerAndDelete s) := by
    apply normalizeTitle_eq_lowerAndDelete
    · intro c hc
      obtain ⟨d, hd, rfl⟩ := hmem c hc
      exact asciiLower_toNat d (hs d hd).1
    · intro c hc hspace
      obtain ⟨d, hd, rfl⟩ := hmem c hc
      rw [asciiLower_isSpace] at hspace
      have := hsp d (hs d hd).1 (hs d hd).2 hspace
      rw [this]
      decide
  rw [h1, h2, lowerAndDelete_idem]

/-- The witness of C5 as amended, at `" Foo: Bar "`. -/
theorem normalizeTitle_idempotent_witness :
    normalizeTitle asciiTables (normalizeTitle asciiTables " Foo: Bar ") =
      normalizeTitle asciiTables " Foo: Bar " :=
  normalizeTitle_idempotent asciiTables " Foo: Bar " (by decide)

/-- C7, as stated, fails: whatever the Unicode tables, the tab inside `"a\tb"` is still
in the normalized title. -/
theorem normalizeTitle_keeps_tab :
    ¬ ∃ U : UnicodeTables, ∀ c ∈ (normalizeTitle U "a\tb").data, isSpace c = false := by
  rintro ⟨U, h⟩
  have h1 : normalizeTitle U "a\tb" = "a\tb" :=
    (normalizeTitle_ascii U "a\tb" (by decide)).trans (by decide)
  rw [h1] at h
  exact absurd (h '\t' (by decide)) (by decide)

/-- C7, amended: for every title the normalized title has no space character U+0020,
and none of the characters `| / \ : * ? " < > . ,`, at its ends or inside. -/
theorem normalizeTitle_no_space (U : UnicodeTables) (s : String) :
    ' ' ∉ (normalizeTitle U s).data ∧
      ∀ c ∈ (normalizeTitle U s).data, c ∉ strippedChars := by
  have h : ∀ c ∈ (normalizeTitle U s).data, c ∉ strippedChars := by
    intro c hc
    rw [normalizeTitle_eq] at hc
    simp only [List.mem_filter] at hc
    simpa using hc.2
  exact ⟨fun hmem => h ' ' hmem (by decide), h⟩

/-! ## The fingerprint -/

theorem sha1Sum_length (msg : List Nat) : (sha1Sum msg).length = 20 := by
  simp [sha1Sum, be32]

theorem sha1Sum_byte (msg : List Nat) : ∀ b ∈ sha1Sum msg, b < 256 := by
  intro b hb
  simp only [sha1Sum, be32, List.cons_append, List.nil_append, List.mem_cons,
    List.mem_singleton, List.not_mem_nil, or_false] at hb
  rcases hb with h | h | h | h | h | h | h | h | h | h | h | h | h | h | h | h | h | h | h | h <;>
    (rw [h]; exact Nat.mod_lt _ (by decide))

theorem hexEncode_length (bytes : List Nat) : (hexEncode bytes).length = 2 * bytes.length := by
  induction bytes with
  | nil => rfl
  | cons b bytes ih =>
    simp only [hexEncode, List.flatMap_cons, List.length_append, List.length_cons,
      List.length_nil] at ih ⊢
    omega

theorem hextable_getD_mem (k : Nat) (hk : k < 16) : hextable.getD k '0' ∈ hextable := by
  have hlen : hextable.length = 16 := by decide
  rw [List.getD_eq_getElem _ _ (by omega)]
  exact List.getElem_mem _

theorem hexEncode_digit (bytes : List Nat) (hbytes : ∀ b ∈ bytes, b < 256) :
    ∀ c ∈ hexEncode bytes, c ∈ hextable := by
  intro c hc
  simp only [hexEncode, List.mem_flatMap, List.mem_cons, List.mem_singleton, List.not_mem_nil,
    or_false] at hc
  obtain ⟨b, hb, h | h⟩ := hc
  · rw [h]
    exact hextable_getD_mem _ (by have := hbytes b hb; omega)
  · rw [h]
    exact hextable_getD_mem _ (Nat.mod_lt _ (by decide))

/-- The fingerprint on the empty string, on the two test vectors of the SHA-1 standard
(FIPS 180) and on a string with code points of two, three and four UTF-8 bytes. -/
theorem hashTitle_test_vectors :
    hashTitle "" = "da39a3ee5e6b4b0d3255bfef95601890afd80709" ∧
    hashTitle "abc" = "a9993e364706816aba3e25717850c26c9cd0d89d" ∧
    hashTitle "abcdbcdecdefdefgefghfghighijhijkijkljklmklmnlmnomnopnopq" =
      "84983e441c3bd26ebaae4aa1f95129e5e54670f1" ∧
    hashTitle "hé € 😀" = "1b522ebe3f8a411778b892b5205af90cd6fb415d" := by
  set_option maxRecDepth 100000 in decide

/-- C8: the fingerprint is the lowercase hexadecimal encoding of the 20-byte SHA-1 digest
of the UTF-8 bytes of the string: 40 characters, each one of `0123456789abcdef`; and
titles with equal normalized titles have equal fingerprints. -/
theorem hashTitle_fixed_width_hex (s : String) :
    (sha1Sum (stringBytes s)).length = 20 ∧
    (∀ b ∈ sha1Sum (stringBytes s), b < 256) ∧
    hashTitle s = ⟨hexEncode (sha1Sum (stringBytes s))⟩ ∧
    (hashTitle s).length = 40 ∧
    (∀ c ∈ (hashTitle s).data, c ∈ "0123456789abcdef".data) ∧
    ∀ (U : UnicodeTables) (t1 t2 : String), normalizeTitle U t1 = normalizeTitle U t2 →
      hashTitle (normalizeTitle U t1) = hashTitle (normalizeTitle U t2) := by
  refine ⟨sha1Sum_length _, sha1Sum_byte _, rfl, ?_, ?_, ?_⟩
  · show (hexEncode (sha1Sum (stringBytes s))).length = 40
    rw [hexEncode_length, sha1Sum_length]
  · exact hexEncode_digit _ (sha1Sum_byte _)
  · intro U t1 t2 h
    rw [h]

/-- The witness of C8: the fingerprint of `" Foo: Bar "` is that of `"foobar"`, the
SHA-1 digest of `foobar` in hexadecimal. -/
theorem hashTitle_fixed_width_hex_witness :
    hashTitle (normalizeTitle asciiTables " Foo: Bar ") =
        hashTitle (normalizeTitle asciiTables "foobar") ∧
      hashTitle (normalizeTitle asciiTables "foobar") =
        "8843d7f92416211de9ebb963ff4ce28125932878" :=
  ⟨(hashTitle_fixed_width_hex "").2.2.2.2.2 asciiTables " Foo: Bar " "foobar" (by decide),
    by set_option maxRecDepth 100000 in decide⟩

/-! ## File names -/

/-- C10: the loop of `removeAllExtensions` ends within its bound for every file name and
the result has no extension left; for a name without a path separator the result is
the part of the name before its first dot, so it has no dot. -/
theorem removeAllExtensions_strips_all (filename : String) :
    (∃ r, removeAllExtensionsLoop (filename.data.length + 1) filename.data = some r ∧
      removeAllExtensions filename = ⟨r⟩) ∧
    ext (removeAllExtensions filename).data = [] ∧
    ((∀ c ∈ filename.data, isPathSeparator c = false) →
      removeAllExtensions filename = ⟨filename.data.takeWhile fun c => c != '.'⟩ ∧
        '.' ∉ (removeAllExtensions filename).data) := by
  obtain ⟨r, hr, hext, _, _⟩ :=
    removeAllExtensionsLoop_spec (filename.data.length + 1) filename.data (Nat.lt_succ_self _)
  have heq : removeAllExtensions filename = ⟨r⟩ := by
    unfold removeAllExtensions
    rw [hr]
    rfl
  refine ⟨⟨r, hr, heq⟩, by rw [heq]; exact hext, ?_⟩
  intro hsep
  have heq' := removeAllExtensions_eq_takeWhile filename hsep
  refine ⟨heq', ?_⟩
  rw [heq']
  intro hmem
  have := List.mem_takeWhile_imp hmem
  simp at this

/-- The witness of C10: `title.f137.mp4` is stripped to `title`. -/
theorem removeAllExtensions_strips_all_witness :
    removeAllExtensions "title.f137.mp4" = "title" ∧
      '.' ∉ (removeAllExtensions "title.f137.mp4").data ∧
      ext (removeAllExtensions "title.f137.mp4").data = [] :=
  ⟨((removeAllExtensions_strips_all "title.f137.mp4").2.2 (by decide)).1.trans (by decide),
    ((removeAllExtensions_strips_all "title.f137.mp4").2.2 (by decide)).2,
    (removeAllExtensions_strips_all "title.f137.mp4").2.1⟩

/-! ## The fingerprints on disk -/

theorem mem_mapSet (existingVideos : List String) (k h : String) :
    h ∈ mapSet existingVideos k ↔ h ∈ existingVideos ∨ h = k := by
  unfold mapSet
  split
  · next hk =>
    constructor
    · exact Or.inl
    · rintro (h1 | rfl)
      · exact h1
      · exact hk
  · simp

theorem nodup_mapSet (existingVideos : List String) (k : String)
    (hn : existingVideos.Nodup) : (mapSet existingVideos k).Nodup := by
  unfold mapSet
  split
  · exact hn
  · next hk =>
    rw [List.nodup_append]
    refine ⟨hn, List.nodup_singleton _, ?_⟩
    intro a ha hb
    simp only [List.mem_singleton] at hb
    exact hk (hb ▸ ha)

/-- The keys of a map after a loop that sets the key `f n` for the names `n` with
`p n`, from any map. -/
theorem mem_foldl_mapSet (p : String → Bool) (f : String → String) (files : List String)
    (init : List String) (h : String) :
    h ∈ files.foldl (fun existingVideos name =>
        if p name then mapSet existingVideos (f name) else existingVideos) init ↔
      h ∈ init ∨ ∃ n ∈ files, p n = true ∧ h = f n := by
  induction files generalizing init with
  | nil => simp
  | cons n files ih =>
    rw [List.foldl_cons, ih]
    by_cases hc : p n = true
    · simp only [hc, if_true, mem_mapSet, List.mem_cons, exists_eq_or_imp, true_and]
      tauto
    · simp only [hc, List.mem_cons, exists_eq_or_imp, false_and, false_or]
      simp

theorem nodup_foldl_mapSet (p : String → Bool) (f : String → String) (files : List String)
    (init : List String) (hn : init.Nodup) :
    (files.foldl (fun existingVideos name =>
        if p name then mapSet existingVideos (f name) else existingVideos) init).Nodup := by
  induction files generalizing init with
  | nil => exact hn
  | cons n files ih =>
    rw [List.foldl_cons]
    apply ih
    split
    · exact nodup_mapSet _ _ hn
    · exact hn

theorem isFileComplete_eq_false (n : String) :
    isFileComplete n = false ↔ (".part".data <:+ n.data ∨ ".aria2".data <:+ n.data) := by
  simp [isFileComplete, hasSuffix, or_iff_not_imp_left]

theorem mem_seedExisting (U : UnicodeTables) (files : List String) (h : String) :
    h ∈ seedExisting U files ↔ ∃ n ∈ files, isFileComplete n = true ∧
      h = hashTitle (normalizeTitle U (removeAllExtensions n)) := by
  have := mem_foldl_mapSet isFileComplete
    (fun n => hashTitle (normalizeTitle U (removeAllExtensions n))) files [] h
  simpa using this

/-- C3: the fingerprints seeded from a list of directory entry names are exactly those
of the names that end with neither `.part` nor `.aria2`, each name stripped of its
extensions and normalized; and `isFileComplete` is false exactly on the names that end
with `.part` or `.aria2`. -/
theorem seedExisting_ignores_incomplete (U : UnicodeTables) (files : List String) :
    (∀ h : String, h ∈ seedExisting U files ↔
      ∃ n ∈ files, ¬ ".part".data <:+ n.data ∧ ¬ ".aria2".data <:+ n.data ∧
        h = hashTitle (normalizeTitle U (removeAllExtensions n))) ∧
    (seedExisting U files).Nodup ∧
    ∀ n : String, isFileComplete n = false ↔
      (".part".data <:+ n.data ∨ ".aria2".data <:+ n.data) := by
  refine ⟨?_, nodup_foldl_mapSet isFileComplete _ files [] List.nodup_nil, isFileComplete_eq_false⟩
  intro h
  rw [mem_seedExisting]
  constructor
  · rintro ⟨n, hn, hc, rfl⟩
    have := (isFileComplete_eq_false n).not.mp (by simp [hc])
    exact ⟨n, hn, fun h1 => this (Or.inl h1), fun h2 => this (Or.inr h2), rfl⟩
  · rintro ⟨n, hn, h1, h2, rfl⟩
    refine ⟨n, hn, ?_, rfl⟩
    have := (isFileComplete_eq_false n).not.mpr (by tauto)
    simpa using this

/-- The witness of C3: `title.mp4.part` seeds nothing and `title.mp4` seeds the
fingerprint of `title`. -/
theorem seedExisting_ignores_incomplete_witness :
    seedExisting asciiTables ["title.mp4.part"] = [] ∧
      seedExisting asciiTables ["title.mp4"] = [hashTitle "title"] ∧
      isFileComplete "title.mp4.part" = false ∧ isFileComplete "title.mp4" = true :=
  ⟨by decide, by set_option maxRecDepth 100000 in decide,
    ((seedExisting_ignores_incomplete asciiTables ["title.mp4.part"]).2.2 "title.mp4.part").mpr
      (Or.inl (by decide)),
    by decide⟩

/-! ## The download tasks under a schedule -/

theorem runInv_init (U : UnicodeTables) (existingVideos : List String)
    (entries : List VideoEntry) :
    RunInv U existingVideos entries [] (initRun existingVideos entries) where
  map_eq := rfl
  length_eq := by simp [initRun]
  pc_eq := by
    intro i e h
    show (entries.map fun _ => TaskPc.start)[i]? = _
    rw [List.getElem?_map, h]
    simp [taskPcAfter]
  fetched_eq := by
    intro i
    cases entries[i]? <;> simp [initRun, RunState.fetched]
  skipped_eq := by
    intro i
    cases entries[i]? <;> simp [initRun, RunState.skipped]

theorem fetched_downloading (st : RunState) (pcs : List TaskPc) (j : Nat) :
    RunState.fetched { st with pcs := pcs, log := st.log ++ [.downloading j] } =
      st.fetched ++ [j] := by
  simp [RunState.fetched, List.filterMap_append]

theorem skipped_downloading (st : RunState) (pcs : List TaskPc) (j : Nat) :
    RunState.skipped { st with pcs := pcs, log := st.log ++ [.downloading j] } =
      st.skipped := by
  simp [RunState.skipped, List.filterMap_append]

theorem fetched_already (st : RunState) (pcs : List TaskPc) (j : Nat) :
    RunState.fetched { st with pcs := pcs, log := st.log ++ [.alreadyDownloaded j] } =
      st.fetched := by
  simp [RunState.fetched, List.filterMap_append]

theorem skipped_already (st : RunState) (pcs : List TaskPc) (j : Nat) :
    RunState.skipped { st with pcs := pcs, log := st.log ++ [.alreadyDownloaded j] } =
      st.skipped ++ [j] := by
  simp [RunState.skipped, List.filterMap_append]

theorem ite_two_le (k : Nat) (P : Prop) [Decidable P] (h : 2 ≤ k) :
    (if 2 ≤ k + 1 ∧ P then 1 else 0) = (if 2 ≤ k ∧ P then (1 : Nat) else 0) := by
  have h' : 2 ≤ k + 1 := by omega
  by_cases hp : P <;> simp [hp, h, h']

theorem runInv_step (U : UnicodeTables) (existingVideos : List String)
    (entries : List VideoEntry) (sched : List Nat) (st : RunState) (j : Nat)
    (inv : RunInv U existingVideos entries sched st) :
    RunInv U existingVideos entries (sched ++ [j]) (stepTask U entries st j) := by
  cases hj : entries[j]? with
  | none =>
    have hst : stepTask U entries st j = st := by simp [stepTask, hj]
    rw [hst]
    refine ⟨inv.map_eq, inv.length_eq, ?_, ?_, ?_⟩
    · intro i e hi
      have hne : i ≠ j := by rintro rfl; rw [hj] at hi; cases hi
      rw [inv.pc_eq i e hi]
      simp [List.count_append, List.count_singleton, hne.symm]
    · intro i
      rw [inv.fetched_eq i]
      by_cases hne : i = j
      · subst hne; simp [hj]
      · simp [List.count_append, List.count_singleton, Ne.symm hne]
    · intro i
      rw [inv.skipped_eq i]
      by_cases hne : i = j
      · subst hne; simp [hj]
      · simp [List.count_append, List.count_singleton, Ne.symm hne]
  | some e =>
    have hpc := inv.pc_eq j e hj
    have hjlt : j < st.pcs.length := by
      exact (List.getElem?_eq_some_iff.mp hpc).1
    have hcount : ∀ i, (sched ++ [j]).count i = sched.count i + if i = j then 1 else 0 := by
      intro i
      by_cases h : i = j
      · subst h; simp [List.count_append]
      · simp [List.count_append, List.count_singleton, h, Ne.symm h]
    have other : ∀ (x : TaskPc) (i : Nat) (e' : VideoEntry), i ≠ j → entries[i]? = some e' →
        (st.pcs.set j x)[i]? =
          some (taskPcAfter (foundIn U existingVideos e') ((sched ++ [j]).count i)) := by
      intro x i e' hne hi
      rw [List.getElem?_set_ne (Ne.symm hne), inv.pc_eq i e' hi, hcount i]
      simp [hne]
    have self : ∀ x : TaskPc, (st.pcs.set j x)[j]? = some x := by
      intro x
      rw [List.getElem?_set_self hjlt]
    rcases Nat.lt_or_ge (sched.count j) 1 with h0 | h1
    · -- the read of the map
      have hk : sched.count j = 0 := by omega
      rw [hk] at hpc
      have hst : stepTask U entries st j =
          { st with pcs := st.pcs.set j (.checked (foundIn U existingVideos e)) } := by
        simp [stepTask, hj, hpc, taskPcAfter, foundIn, inv.map_eq]
      rw [hst]
      refine ⟨inv.map_eq, by simpa using inv.length_eq, ?_, ?_, ?_⟩
      · intro i e' hi
        by_cases hne : i = j
        · subst hne
          rw [hj] at hi
          cases hi
          show (st.pcs.set i _)[i]? = _
          rw [self, hcount i, hk]
          simp [taskPcAfter]
        · exact other _ i e' hne hi
      · intro i
        show st.fetched.count i = _
        rw [inv.fetched_eq i, hcount i]
        by_cases hne : i = j
        · subst hne; simp [hj, hk]
        · simp [hne]
      · intro i
        show st.skipped.count i = _
        rw [inv.skipped_eq i, hcount i]
        by_cases hne : i = j
        · subst hne; simp [hj, hk]
        · simp [hne]
    · rcases Nat.lt_or_ge (sched.count j) 2 with h1' | h2
      · -- the download or the log line
        have hk : sched.count j = 1 := by omega
        rw [hk] at hpc
        have hpc' : st.pcs[j]? = some (.checked (foundIn U existingVideos e)) := by
          simpa [taskPcAfter] using hpc
        cases hf : foundIn U existingVideos e with
        | false =>
          rw [hf] at hpc'
          have hst : stepTask U entries st j =
              { st with pcs := st.pcs.set j .done, log := st.log ++ [.downloading j] } := by
            simp [stepTask, hj, hpc']
          rw [hst]
          refine ⟨inv.map_eq, by simpa using inv.length_eq, ?_, ?_, ?_⟩
          · intro i e' hi
            by_cases hne : i = j
            · subst hne
              rw [hj] at hi
              cases hi
              show (st.pcs.set i _)[i]? = _
              rw [self, hcount i, hk]
              simp [taskPcAfter]
            · exact other _ i e' hne hi
          · intro i
            rw [fetched_downloading, List.count_append, inv.fetched_eq i, hcount i]
            by_cases hne : i = j
            · subst hne; simp [hj, hk, hf]
            · simp [hne, List.count_singleton, Ne.symm hne]
          · intro i
            rw [skipped_downloading, inv.skipped_eq i, hcount i]
            by_cases hne : i = j
            · subst hne; simp [hj, hk, hf]
            · simp [hne]
        | true =>
          rw [hf] at hpc'
          have hst : stepTask U entries st j =
              { st with pcs := st.pcs.set j .done, log := st.log ++ [.alreadyDownloaded j] } := by
            simp [stepTask, hj, hpc']
          rw [hst]
          refine ⟨inv.map_eq, by simpa using inv.length_eq, ?_, ?_, ?_⟩
          · intro i e' hi
            by_cases hne : i = j
            · subst hne
              rw [hj] at hi
              cases hi
              show (st.pcs.set i _)[i]? = _
              rw [self, hcount i, hk]
              simp [taskPcAfter]
            · exact other _ i e' hne hi
          · intro i
            rw [fetched_already, inv.fetched_eq i, hcount i]
            by_cases hne : i = j
            · subst hne; simp [hj, hk, hf]
            · simp [hne]
          · intro i
            rw [skipped_already, List.count_append, inv.skipped_eq i, hcount i]
            by_cases hne : i = j
            · subst hne; simp [hj, hk, hf]
            · simp [hne, List.count_singleton, Ne.symm hne]
      · -- the task has returned
        have hpc' : st.pcs[j]? = some .done := by
          rw [hpc, taskPcAfter, if_neg (by omega), if_neg (by omega)]
        have hst : stepTask U entries st j = st := by simp [stepTask, hj, hpc']
        rw [hst]
        refine ⟨inv.map_eq, inv.length_eq, ?_, ?_, ?_⟩
        · intro i e' hi
          rw [inv.pc_eq i e' hi, hcount i]
          by_cases hne : i = j
          · subst hne
            rw [taskPcAfter, if_neg (by omega), if_neg (by omega), taskPcAfter,
              if_neg (by simp), if_neg (by simp; omega)]
          · simp [hne]
        · intro i
          rw [inv.fetched_eq i, hcount i]
          by_cases hne : i = j
          · subst hne
            simp only [hj, if_true]
            exact (ite_two_le _ _ h2).symm
          · simp [hne]
        · intro i
          rw [inv.skipped_eq i, hcount i]
          by_cases hne : i = j
          · subst hne
            simp only [hj, if_true]
            exact (ite_two_le _ _ h2).symm
          · simp [hne]

/-- After any schedule the state of the run is the one `RunInv` describes. -/
theorem runInv_runTasks (U : UnicodeTables) (existingVideos : List String)
    (entries : List VideoEntry) (sched : List Nat) :
    RunInv U existingVideos entries sched (runTasks U existingVideos entries sched) := by
  induction sched using List.reverseRecOn with
  | nil => exact runInv_init U existingVideos entries
  | append_singleton sched j ih =>
    have : runTasks U existingVideos entries (sched ++ [j]) =
        stepTask U entries (runTasks U existingVideos entries sched) j := by
      simp [runTasks, List.foldl_append]
    rw [this]
    exact runInv_step U existingVideos entries sched _ j ih

/-! ## Runs on ASCII input -/

theorem removeAllExtensions_initial_segment (filename : String) :
    (removeAllExtensions filename).data <+: filename.data := by
  obtain ⟨r, hr, _, hpre, _⟩ :=
    removeAllExtensionsLoop_spec (filename.data.length + 1) filename.data (Nat.lt_succ_self _)
  have heq : removeAllExtensions filename = ⟨r⟩ := by
    unfold removeAllExtensions
    rw [hr]
    rfl
  rw [heq]
  exact hpre

/-- On ASCII file names every `UnicodeTables` seeds what `asciiTables` seeds. -/
theorem seedExisting_ascii (U : UnicodeTables) (files : List String)
    (hfiles : ∀ n ∈ files, ∀ c ∈ n.data, c.toNat < 128) :
    seedExisting U files = seedExisting asciiTables files := by
  unfold seedExisting
  apply List.foldl_ext
  intro acc n hn
  rw [normalizeTitle_ascii U (removeAllExtensions n)
    fun c hc => hfiles n hn c ((removeAllExtensions_initial_segment n).subset hc)]

/-- On ASCII titles every `UnicodeTables` gives the run `asciiTables` gives. -/
theorem runTasks_ascii (U : UnicodeTables) (existingVideos : List String)
    (entries : List VideoEntry) (sched : List Nat)
    (hentries : ∀ e ∈ entries, ∀ c ∈ e.title.data, c.toNat < 128) :
    runTasks U existingVideos entries sched =
      runTasks asciiTables existingVideos entries sched := by
  have hstep : stepTask U entries = stepTask asciiTables entries := by
    funext st i
    unfold stepTask
    cases hi : entries[i]? with
    | none => rfl
    | some e =>
      have he : e ∈ entries := List.getElem?_mem hi
      cases st.pcs[i]? with
      | none => rfl
      | some pc =>
        cases pc with
        | start =>
          show RunState.mk _ _ _ = RunState.mk _ _ _
          rw [normalizeTitle_ascii U e.title (hentries e he)]
        | checked found => cases found <;> rfl
        | done => rfl
  rw [runTasks, runTasks, hstep]

/-! ## Complete runs -/

theorem allDone_iff (U : UnicodeTables) (existingVideos : List String)
    (entries : List VideoEntry) (sched : List Nat) :
    (runTasks U existingVideos entries sched).allDone = true ↔
      ∀ i < entries.length, 2 ≤ sched.count i := by
  have inv := runInv_runTasks U existingVideos entries sched
  simp only [RunState.allDone, List.all_eq_true, decide_eq_true_eq]
  constructor
  · intro h i hi
    have hget : entries[i]? = some entries[i] := List.getElem?_eq_getElem hi
    have hpc := inv.pc_eq i _ hget
    have hmem : taskPcAfter (foundIn U existingVideos entries[i]) (sched.count i) ∈
        (runTasks U existingVideos entries sched).pcs := List.getElem?_mem hpc
    have := h _ hmem
    unfold taskPcAfter at this
    by_contra hlt
    rcases Nat.lt_or_ge (sched.count i) 1 with h0 | h1
    · rw [if_pos (by omega)] at this
      cases this
    · rw [if_neg (by omega), if_pos (by omega)] at this
      cases this
  · intro h pc hpc
    obtain ⟨i, hi, rfl⟩ := List.getElem_of_mem hpc
    have hi' : i < entries.length := inv.length_eq ▸ hi
    have hget : entries[i]? = some entries[i] := List.getElem?_eq_getElem hi'
    have hpc := inv.pc_eq i _ hget
    rw [List.getElem?_eq_getElem hi] at hpc
    have h2 := h i hi'
    rw [Option.some.inj hpc, taskPcAfter, if_neg (by omega), if_neg (by omega)]

/-- In a complete run an entry is downloaded once if its fingerprint is not a key of the
map and logged once as already downloaded if it is. -/
theorem complete_run_counts (U : UnicodeTables) (existingVideos : List String)
    (entries : List VideoEntry) (sched : List Nat) (i : Nat) (e : VideoEntry)
    (hi : entries[i]? = some e)
    (hdone : (runTasks U existingVideos entries sched).allDone = true) :
    (hashTitle (normalizeTitle U e.title) ∈ existingVideos →
      (runTasks U existingVideos entries sched).fetched.count i = 0 ∧
      (runTasks U existingVideos entries sched).skipped.count i = 1) ∧
    (hashTitle (normalizeTitle U e.title) ∉ existingVideos →
      (runTasks U existingVideos entries sched).fetched.count i = 1 ∧
      (runTasks U existingVideos entries sched).skipped.count i = 0) := by
  have inv := runInv_runTasks U existingVideos entries sched
  have hlt : i < entries.length := (List.getElem?_eq_some_iff.mp hi).1
  have h2 : 2 ≤ sched.count i := (allDone_iff U existingVideos entries sched).mp hdone i hlt
  have hf := inv.fetched_eq i
  have hs := inv.skipped_eq i
  rw [hi] at hf hs
  simp only [h2, true_and] at hf hs
  constructor
  · intro hmem
    have : foundIn U existingVideos e = true := by simp [foundIn, hmem]
    rw [hf, hs]
    simp [this]
  · intro hmem
    have : foundIn U existingVideos e = false := by simp [foundIn, hmem]
    rw [hf, hs]
    simp [this]

/-! ## Claims on the run -/

/-- C2: in every complete run, an entry whose fingerprint was seeded from the directory
is never downloaded and is logged as already downloaded, and an entry whose fingerprint
was not seeded and is shared by no other entry is downloaded. -/
theorem seeded_skipped_unseeded_fetched (U : UnicodeTables) (files : List String)
    (entries : List VideoEntry) (sched : List Nat) (i : Nat) (e : VideoEntry)
    (hi : entries[i]? = some e)
    (hdone : (runTasks U (seedExisting U files) entries sched).allDone = true) :
    (hashTitle (normalizeTitle U e.title) ∈ seedExisting U files →
      (runTasks U (seedExisting U files) entries sched).fetched.count i = 0 ∧
      (runTasks U (seedExisting U files) entries sched).skipped.count i = 1) ∧
    (hashTitle (normalizeTitle U e.title) ∉ seedExisting U files →
      (∀ (j : Nat) (e' : VideoEntry), j ≠ i → entries[j]? = some e' →
        hashTitle (normalizeTitle U e'.title) ≠ hashTitle (normalizeTitle U e.title)) →
      (runTasks U (seedExisting U files) entries sched).fetched.count i = 1 ∧
      (runTasks U (seedExisting U files) entries sched).skipped.count i = 0) :=
  ⟨(complete_run_counts U _ entries sched i e hi hdone).1,
    fun hnew _ => (complete_run_counts U _ entries sched i e hi hdone).2 hnew⟩

/-- The witness of C2: with `Talk B.mp4` in the directory and the playlist `Talk A`,
`Talk B`, the entry `Talk B` is not downloaded and the entry `Talk A` is. -/
theorem seeded_skipped_unseeded_fetched_witness :
    (runTasks asciiTables (seedExisting asciiTables ["Talk B.mp4"])
        [⟨"https://example.com/1", "Talk A"⟩, ⟨"https://example.com/3", "Talk B"⟩]
        [1, 0, 0, 1]).fetched.count 1 = 0 ∧
    (runTasks asciiTables (seedExisting asciiTables ["Talk B.mp4"])
        [⟨"https://example.com/1", "Talk A"⟩, ⟨"https://example.com/3", "Talk B"⟩]
        [1, 0, 0, 1]).fetched.count 0 = 1 :=
  ⟨((seeded_skipped_unseeded_fetched asciiTables ["Talk B.mp4"]
        [⟨"https://example.com/1", "Talk A"⟩, ⟨"https://example.com/3", "Talk B"⟩]
        [1, 0, 0, 1] 1 ⟨"https://example.com/3", "Talk B"⟩ rfl (by set_option maxRecDepth 100000 in decide)).1 (by set_option maxRecDepth 100000 in decide)).1,
    ((seeded_skipped_unseeded_fetched asciiTables ["Talk B.mp4"]
        [⟨"https://example.com/1", "Talk A"⟩, ⟨"https://example.com/3", "Talk B"⟩]
        [1, 0, 0, 1] 0 ⟨"https://example.com/1", "Talk A"⟩ rfl (by set_option maxRecDepth 100000 in decide)).2 (by set_option maxRecDepth 100000 in decide)
        (fun j e' hj he =>
          match j, hj, he with
          | 0, hj, _ => absurd rfl hj
          | 1, _, he => by
            cases he
            set_option maxRecDepth 100000 in decide
          | _ + 2, _, he => by cases he)).1⟩

/-- C1, as stated, fails: with `Talk B.mp4` in the directory and the playlist `Talk A`,
`Talk A`, `Talk B`, the run downloads both entries titled `Talk A` (and skips
`Talk B`); under no Unicode tables and no schedule does a complete run download just
one of the two. -/
theorem duplicate_titles_both_fetched :
    ((runTasks asciiTables (seedExisting asciiTables ["Talk B.mp4"]) talkCatalog
        [0, 1, 2, 0, 1, 2]).allDone = true ∧
      (runTasks asciiTables (seedExisting asciiTables ["Talk B.mp4"]) talkCatalog
        [0, 1, 2, 0, 1, 2]).fetched = [0, 1] ∧
      (runTasks asciiTables (seedExisting asciiTables ["Talk B.mp4"]) talkCatalog
        [0, 1, 2, 0, 1, 2]).skipped = [2]) ∧
    ¬ ∃ (U : UnicodeTables) (sched : List Nat),
      (runTasks U (seedExisting U ["Talk B.mp4"]) talkCatalog sched).allDone = true ∧
      (runTasks U (seedExisting U ["Talk B.mp4"]) talkCatalog sched).fetched.count 0 +
        (runTasks U (seedExisting U ["Talk B.mp4"]) talkCatalog sched).fetched.count 1 = 1 := by
  refine ⟨by set_option maxRecDepth 100000 in decide, ?_⟩
  rintro ⟨U, sched, hdone, hone⟩
  have hfiles : seedExisting U ["Talk B.mp4"] = seedExisting asciiTables ["Talk B.mp4"] :=
    seedExisting_ascii U _ (by set_option maxRecDepth 100000 in decide)
  have hA : normalizeTitle U "Talk A" = normalizeTitle asciiTables "Talk A" :=
    normalizeTitle_ascii U _ (by set_option maxRecDepth 100000 in decide)
  have hnew : hashTitle (normalizeTitle U "Talk A") ∉ seedExisting U ["Talk B.mp4"] := by
    rw [hfiles, hA]
    set_option maxRecDepth 100000 in decide
  have h0 := (complete_run_counts U _ talkCatalog sched 0 ⟨"https://example.com/1", "Talk A"⟩
    rfl hdone).2 hnew
  have h1 := (complete_run_counts U _ talkCatalog sched 1 ⟨"https://example.com/2", "Talk A"⟩
    rfl hdone).2 hnew
  rw [h0.1, h1.1] at hone
  exact absurd hone (by set_option maxRecDepth 100000 in decide)

/-- C1, amended: in every complete run, two entries that share a fingerprint not seeded
from the directory are both downloaded and neither is skipped. -/
theorem duplicates_unseeded_all_fetched (U : UnicodeTables) (files : List String)
    (entries : List VideoEntry) (sched : List Nat) (i j : Nat) (e e' : VideoEntry)
    (hi : entries[i]? = some e) (hj : entries[j]? = some e') (_hij : i ≠ j)
    (hsame : hashTitle (normalizeTitle U e.title) = hashTitle (normalizeTitle U e'.title))
    (hnew : hashTitle (normalizeTitle U e.title) ∉ seedExisting U files)
    (hdone : (runTasks U (seedExisting U files) entries sched).allDone = true) :
    (runTasks U (seedExisting U files) entries sched).fetched.count i = 1 ∧
    (runTasks U (seedExisting U files) entries sched).fetched.count j = 1 ∧
    (runTasks U (seedExisting U files) entries sched).skipped.count i = 0 ∧
    (runTasks U (seedExisting U files) entries sched).skipped.count j = 0 := by
  have h1 := (complete_run_counts U _ entries sched i e hi hdone).2 hnew
  have h2 := (complete_run_counts U _ entries sched j e' hj hdone).2 (hsame ▸ hnew)
  exact ⟨h1.1, h2.1, h1.2, h2.2⟩

/-- The witness of C1 as amended, on the end-to-end scenario. -/
theorem duplicates_unseeded_all_fetched_witness :
    (runTasks asciiTables (seedExisting asciiTables ["Talk B.mp4"]) talkCatalog
        [2, 1, 0, 0, 1, 2]).fetched.count 0 = 1 ∧
    (runTasks asciiTables (seedExisting asciiTables ["Talk B.mp4"]) talkCatalog
        [2, 1, 0, 0, 1, 2]).fetched.count 1 = 1 ∧
    (runTasks asciiTables (seedExisting asciiTables ["Talk B.mp4"]) talkCatalog
        [2, 1, 0, 0, 1, 2]).skipped.count 0 = 0 ∧
    (runTasks asciiTables (seedExisting asciiTables ["Talk B.mp4"]) talkCatalog
        [2, 1, 0, 0, 1, 2]).skipped.count 1 = 0 :=
  duplicates_unseeded_all_fetched asciiTables ["Talk B.mp4"] talkCatalog [2, 1, 0, 0, 1, 2] 0 1
    ⟨"https://example.com/1", "Talk A"⟩ ⟨"https://example.com/2", "Talk A"⟩ rfl rfl (by set_option maxRecDepth 100000 in decide)
    rfl (by set_option maxRecDepth 100000 in decide) (by set_option maxRecDepth 100000 in decide)

/-! ## From a saved file back to the title -/

theorem isFileComplete_mp4 (t : String) : isFileComplete (t ++ ".mp4") = true := by
  have h := (isFileComplete_eq_false (t ++ ".mp4")).not
  have hne : ¬ (".part".data <:+ (t ++ ".mp4").data ∨ ".aria2".data <:+ (t ++ ".mp4").data) := by
    rw [String.data_append]
    rintro (h1 | h1) <;>
    · rw [← List.reverse_prefix] at h1
      simp at h1
  simpa using h.mpr hne

theorem removeAllExtensions_mp4 (t : String)
    (hsep : ∀ c ∈ t.data, isPathSeparator c = false) (hdot : '.' ∉ t.data) :
    removeAllExtensions (t ++ ".mp4") = t := by
  have hsep' : ∀ c ∈ (t ++ ".mp4").data, isPathSeparator c = false := by
    intro c hc
    rw [String.data_append, List.mem_append] at hc
    rcases hc with hc | hc
    · exact hsep c hc
    · revert c
      decide
  rw [removeAllExtensions_eq_takeWhile (t ++ ".mp4") hsep']
  have : (t ++ ".mp4").data = t.data ++ '.' :: "mp4".data := by
    rw [String.data_append]
  rw [this, takeWhile_append_stop _ _ _ _ (by decide)]
  have : t.data.takeWhile (fun c => c != '.') = t.data := by
    rw [List.takeWhile_eq_self_iff]
    intro c hc
    simp only [bne_iff_ne, ne_eq]
    rintro rfl
    exact hdot hc
  rw [this]

/-- C4, as stated, fails: the title `Mr. Robot` has no path separator, yet its file
`Mr. Robot.mp4` is stripped to `Mr`, whose normalized title `mr` is not the normalized
title `mrrobot` of the entry; and the run downloads the entry although the file is
there. -/
theorem dotted_title_not_recovered :
    (¬ ∃ U : UnicodeTables,
      normalizeTitle U (removeAllExtensions ("Mr. Robot" ++ ".mp4")) =
        normalizeTitle U "Mr. Robot") ∧
    (runTasks asciiTables (seedExisting asciiTables ["Mr. Robot.mp4"])
      [⟨"https://example.com/1", "Mr. Robot"⟩] [0, 0]).fetched = [0] := by
  refine ⟨?_, by set_option maxRecDepth 100000 in decide⟩
  rintro ⟨U, h⟩
  have h1 : removeAllExtensions ("Mr. Robot" ++ ".mp4") = "Mr" := by decide
  have h2 : normalizeTitle U "Mr" = "mr" :=
    (normalizeTitle_ascii U "Mr" (by decide)).trans (by decide)
  have h3 : normalizeTitle U "Mr. Robot" = "mrrobot" :=
    (normalizeTitle_ascii U "Mr. Robot" (by decide)).trans (by decide)
  rw [h1, h2, h3] at h
  exact absurd h (by decide)

/-- C4, amended: for a title `t` with no path separator and no dot, stripping the
extensions of `t.mp4` gives `t` back, so the fingerprint seeded from the complete file
`t.mp4` is the fingerprint of the entry titled `t`, and in every complete run with that
file in the directory the entry is not downloaded. -/
theorem title_recovered_from_file (U : UnicodeTables) (t : String)
    (hsep : ∀ c ∈ t.data, isPathSeparator c = false) (hdot : '.' ∉ t.data) :
    removeAllExtensions (t ++ ".mp4") = t ∧
    normalizeTitle U (removeAllExtensions (t ++ ".mp4")) = normalizeTitle U t ∧
    seedExisting U [t ++ ".mp4"] = [hashTitle (normalizeTitle U t)] ∧
    ∀ (files : List String) (entries : List VideoEntry) (sched : List Nat) (i : Nat)
      (e : VideoEntry), t ++ ".mp4" ∈ files → entries[i]? = some e → e.title = t →
      (runTasks U (seedExisting U files) entries sched).allDone = true →
      (runTasks U (seedExisting U files) entries sched).fetched.count i = 0 ∧
      (runTasks U (seedExisting U files) entries sched).skipped.count i = 1 := by
  have h1 := removeAllExtensions_mp4 t hsep hdot
  refine ⟨h1, by rw [h1], ?_, ?_⟩
  · simp [seedExisting, isFileComplete_mp4, h1, mapSet]
  · intro files entries sched i e hfile hi htitle hdone
    apply (complete_run_counts U _ entries sched i e hi hdone).1
    rw [mem_seedExisting]
    exact ⟨t ++ ".mp4", hfile, isFileComplete_mp4 t, by rw [h1, htitle]⟩

/-- The witness of C4 as amended, at the title `Talk B`. -/
theorem title_recovered_from_file_witness :
    removeAllExtensions ("Talk B" ++ ".mp4") = "Talk B" ∧
    (runTasks asciiTables (seedExisting asciiTables ["Talk B.mp4"]) talkCatalog
      [0, 1, 2, 0, 1, 2]).fetched.count 2 = 0 :=
  ⟨(title_recovered_from_file asciiTables "Talk B" (by decide) (by decide)).1,
    ((title_recovered_from_file asciiTables "Talk B" (by decide) (by decide)).2.2.2
      ["Talk B.mp4"] talkCatalog [0, 1, 2, 0, 1, 2] 2 ⟨"https://example.com/3", "Talk B"⟩
      (by decide) rfl rfl (by set_option maxRecDepth 100000 in decide)).1⟩

/-! ## Errors in the walk -/

mutual
/-- The callback of `main` never returns an error, so the walk of a tree never does,
whatever `os.ReadDir` reports. -/
theorem walkDir_collectFiles (path : String) :
    ∀ (d : FsNode) (files : List String),
      ∃ files', walkDir collectFiles path d files = some (files', none)
  | .file name, files => ⟨files ++ [name], by simp [walkDir, collectFiles, FsNode.isDir, FsNode.name]⟩
  | .dir name entries readErr, files => by
    cases readErr with
    | none =>
      obtain ⟨files', h⟩ := walkEntries_collectFiles path entries files
      exact ⟨files', by simp [walkDir, collectFiles, FsNode.isDir, h]⟩
    | some err =>
      obtain ⟨files', h⟩ := walkEntries_collectFiles path entries files
      exact ⟨files', by simp [walkDir, collectFiles, FsNode.isDir, h]⟩
/-- The loop over the entries of a directory never returns an error under the callback
of `main`. -/
theorem walkEntries_collectFiles (path : String) :
    ∀ (ds : List FsNode) (files : List String),
      ∃ files', walkEntries collectFiles path ds files = some (files', none)
  | [], files => ⟨files, by simp [walkEntries]⟩
  | d :: rest, files => by
    obtain ⟨files1, h1⟩ := walkDir_collectFiles (path ++ "/" ++ d.name) d files
    obtain ⟨files2, h2⟩ := walkEntries_collectFiles path rest files1
    exact ⟨files2, by simp [walkEntries, h1, h2]⟩
end

/-- When `os.Lstat` of the target directory succeeds, `main` never takes the branch
`log.Fatalf("Error reading directory: ...")`: the download tasks are always started. -/
theorem mainRun_never_fatal (U : UnicodeTables) (dirPath : String) (root : FsNode)
    (entries : List VideoEntry) (sched : List Nat) :
    ∃ files, mainRun U dirPath (.ok root) entries sched =
      .dispatched files (runTasks U (seedExisting U files) entries sched) := by
  obtain ⟨files, h⟩ := walkDir_collectFiles dirPath root []
  exact ⟨files, by simp [mainRun, walkDirRoot, h]⟩

/-- C9 at a failing input: `os.ReadDir` of the target directory reports
`permission denied` and no entry; the callback is called with that error and returns
`nil`, the walk returns no error, and the run goes on with an empty list of files and
downloads the entry `Talk A`. -/
theorem walk_error_swallowed :
    walkDirRoot collectFiles "/out/Talks_BY_Chan"
        (.ok (.dir "Talks_BY_Chan" [] (some "permission denied"))) [] = some ([], none) ∧
    mainRun asciiTables "/out/Talks_BY_Chan"
        (.ok (.dir "Talks_BY_Chan" [] (some "permission denied")))
        [⟨"https://example.com/1", "Talk A"⟩] [0, 0] =
      .dispatched []
        { existingVideos := [], pcs := [.done], log := [.downloading 0] } := by
  constructor
  · decide
  · set_option maxRecDepth 100000 in decide

end Yankyt
